import Mathlib

/-!
Verification of the scale-clip composition pipeline (src/predict.py).

Python strings are modelled over `List Char`; `str.replace`, `str.split`,
`str.strip` and friends are translated structurally.  The few floating-point
products in the source (`0.58 * 18`, `h * 0.04`, `font_size * 1.3`, …) only
ever hold values whose floored results agree with exact integer arithmetic at
the magnitudes a video frame can have, so they are modelled with integer
divisions.  The ffmpeg filter graphs built by string concatenation in the
source are modelled as explicit node lists carrying the same labels, inputs
and parameters.
-/

namespace ScaleClip

/-- The whitespace characters of Python's `str.strip()` / `\s` (ASCII range). -/
def pyWhitespace : List Char := [' ', '\t', '\n', '\r', '\x0b', '\x0c']

def isPySpace (c : Char) : Bool := pyWhitespace.contains c

/-- Python `str.strip()`: drop whitespace from both ends. -/
def pyStripList (l : List Char) : List Char :=
  ((l.dropWhile isPySpace).reverse.dropWhile isPySpace).reverse

def pyStrip (s : String) : String := String.mk (pyStripList s.data)

/-- Python `text.split(sep)` for a one-character separator (keeps empty fields). -/
def splitOnChar (sep : Char) : List Char → List (List Char)
  | [] => [[]]
  | c :: rest =>
      let r := splitOnChar sep rest
      if c = sep then [] :: r
      else
        match r with
        | [] => [[c]]
        | w :: ws => (c :: w) :: ws

/-- Python `sep.join(pieces)` for a one-character separator. -/
def joinSep (sep : Char) : List (List Char) → List Char
  | [] => []
  | [w] => w
  | w :: ws => w ++ sep :: joinSep sep ws

/-- The chunking `[text[i:i+max] for i in range(0, len(text), max)]` of
`wrap_text_simple`'s single-word branch, driven by a fuel argument that is
ample whenever `maxChars > 0` (for `maxChars = 0` the Python source raises). -/
def chunkFuel (maxChars : Nat) : Nat → List Char → List (List Char)
  | _, [] => []
  | 0, _ => []
  | Nat.succ fuel, l => l.take maxChars :: chunkFuel maxChars fuel (l.drop maxChars)

def hardChunks (l : List Char) (maxChars : Nat) : List (List Char) :=
  chunkFuel maxChars l.length l

/-- The greedy accumulation loop of `wrap_text_simple` (src/predict.py:147-155):
`test = (cur + " " + w).strip() if cur else w`; on overflow with a non-empty
current line the line is closed and `cur` restarts at `w`. -/
def wrapGo (maxChars : Nat) (cur : List Char) : List (List Char) → List (List Char)
  | [] => if cur = [] then [] else [cur]
  | w :: ws =>
      let test := if cur = [] then w else pyStripList (cur ++ ' ' :: w)
      if maxChars < test.length ∧ cur ≠ [] then cur :: wrapGo maxChars w ws
      else wrapGo maxChars test ws

/-- The lines produced by `wrap_text_simple` (src/predict.py:139-156) before the
final `"\n".join`. -/
def wrapLines (text : List Char) (maxChars : Nat) : List (List Char) :=
  if text = [] then []
  else
    let words := splitOnChar ' ' text
    if words.length ≤ 1 then hardChunks text maxChars
    else wrapGo maxChars [] words

def wrap_text_simple (text : String) (maxChars : Nat) : String :=
  String.mk (joinSep '\n' (wrapLines text.data maxChars))

/-- A word in the strict sense: a non-empty whitespace-free token. -/
def wordOK (w : List Char) : Prop := w ≠ [] ∧ ∀ c ∈ w, isPySpace c = false

instance wordOKDec (w : List Char) : Decidable (wordOK w) :=
  inferInstanceAs (Decidable (w ≠ [] ∧ ∀ c ∈ w, isPySpace c = false))

/- ------------------ escaping layer (escape_drawtext) ------------------ -/

def bslash : Char := Char.ofNat 92
def quoteC : Char := Char.ofNat 39
def lbrC : Char := Char.ofNat 91
def rbrC : Char := Char.ofNat 93

/-- Python `s.replace(pat, repl)` for a one-character pattern. -/
def rep1 (pat : Char) (repl : List Char) : List Char → List Char
  | [] => []
  | c :: rest => (if c = pat then repl else [c]) ++ rep1 pat repl rest

/-- Model of `escape_drawtext` (src/predict.py:125-137): the eight replacements in
source order (backslash first, then quote, colon, brackets, comma, semicolon,
newline).  The source's early return on the empty string is the identity here. -/
def escape_drawtext (s : List Char) : List Char :=
  let s1 := rep1 bslash [bslash, bslash] s
  let s2 := rep1 quoteC [bslash, bslash, quoteC] s1
  let s3 := rep1 ':' [bslash, ':'] s2
  let s4 := rep1 lbrC [bslash, lbrC] s3
  let s5 := rep1 rbrC [bslash, rbrC] s4
  let s6 := rep1 ',' [bslash, ','] s5
  let s7 := rep1 ';' [bslash, ';'] s6
  rep1 '\n' [bslash, 'n'] s7

/-- The per-character code that the eight replacements of `escape_drawtext`
jointly implement. -/
def escCode (c : Char) : List Char :=
  if c = bslash then [bslash, bslash]
  else if c = quoteC then [bslash, bslash, quoteC]
  else if c = ':' then [bslash, ':']
  else if c = lbrC then [bslash, lbrC]
  else if c = rbrC then [bslash, rbrC]
  else if c = ',' then [bslash, ',']
  else if c = ';' then [bslash, ';']
  else if c = '\n' then [bslash, 'n']
  else [c]

/-- Conceptual decoder for `escape_drawtext`'s output: consumes `\\'` as a
quote, `\\` as a backslash, `\n` as a newline, any other `\x` as `x`. -/
def unescape_drawtext : List Char → List Char
  | [] => []
  | [c] => [c]
  | c1 :: c2 :: rest =>
      if c1 = bslash then
        if c2 = bslash then
          if rest.head? = some quoteC then quoteC :: unescape_drawtext rest.tail
          else bslash :: unescape_drawtext rest
        else if c2 = 'n' then '\n' :: unescape_drawtext rest
        else c2 :: unescape_drawtext rest
      else c1 :: unescape_drawtext (c2 :: rest)
termination_by l => l.length
decreasing_by
  all_goals simp_wf
  all_goals cases rest <;> simp <;> omega

/-- All metacharacters of the drawtext mini-language that `escape_drawtext`
handles. -/
def metaAll : List Char := [bslash, quoteC, ':', lbrC, rbrC, ',', ';', '\n']

/-- The same list without the single quote. -/
def metaNoQuote : List Char := [bslash, ':', lbrC, rbrC, ',', ';', '\n']

/-- Scans a string for a metacharacter occurrence that is not consumed as part
of a backslash escape sequence (a lone trailing backslash also counts). -/
def scanUnescaped (metas : List Char) : List Char → Bool
  | [] => false
  | [c] => if c = bslash then true else decide (c ∈ metas)
  | c1 :: c2 :: rest =>
      if c1 = bslash then scanUnescaped metas rest
      else if c1 ∈ metas then true
      else scanUnescaped metas (c2 :: rest)
termination_by l => l.length

/- ------------------ language / font resolver ------------------ -/

/-- The per-character codepoint classification of `detect_language`
(src/predict.py:97-116), the range checks in source order. -/
def scriptOf (c : Char) : Option String :=
  let code := c.toNat
  if (0x4E00 ≤ code ∧ code ≤ 0x9FFF) ∨ (0x3400 ≤ code ∧ code ≤ 0x4DBF) then some "chinese"
  else if (0x3040 ≤ code ∧ code ≤ 0x309F) ∨ (0x30A0 ≤ code ∧ code ≤ 0x30FF) then some "japanese"
  else if 0xAC00 ≤ code ∧ code ≤ 0xD7AF then some "korean"
  else if 0x0E00 ≤ code ∧ code ≤ 0x0E7F then some "thai"
  else if 0x0B80 ≤ code ∧ code ≤ 0x0BFF then some "tamil"
  else if 0x0980 ≤ code ∧ code ≤ 0x09FF then some "bengali"
  else if 0x0600 ≤ code ∧ code ≤ 0x06FF then some "arabic"
  else none

def detectGo : List Char → String
  | [] => "english"
  | c :: rest =>
      match scriptOf c with
      | some s => s
      | none => detectGo rest

/-- Model of `detect_language` (src/predict.py:97-116). -/
def detect_language (text : List Char) : String := detectGo text

/-- First-match reading: the script of the earliest character that matches any
of the seven implemented ranges, else English. -/
def detectFirstMatch (text : List Char) : String :=
  (text.findSome? scriptOf).getD "english"

/-- Spec-side resolver following the spec's script list of section 4.1, which
additionally includes Tagalog (Unicode block 0x1700-0x171F); used only to
compare the claimed script list against the implemented one. -/
def scriptOfSpec (c : Char) : Option String :=
  let code := c.toNat
  if (0x1700 ≤ code ∧ code ≤ 0x171F) then some "tagalog"
  else scriptOf c

def detectLanguageSpec (text : List Char) : String :=
  (text.findSome? scriptOfSpec).getD "english"

def englishFont : String := "public/fonts/NotoSans-Bold.ttf"

/-- The module-level `FONTS` table (src/predict.py:22-32). -/
def FONTS : List (String × String) :=
  [("english", "public/fonts/NotoSans-Bold.ttf"),
   ("chinese", "public/fonts/NotoSansSC-Bold.ttf"),
   ("japanese", "public/fonts/NotoSansJP-Bold.ttf"),
   ("korean", "public/fonts/NotoSansKR-Bold.ttf"),
   ("arabic", "public/fonts/NotoSansArabic-Bold.ttf"),
   ("bengali", "public/fonts/NotoSansBengali-Bold.ttf"),
   ("tamil", "public/fonts/NotoSansTamil-Bold.ttf"),
   ("thai", "public/fonts/NotoSansThai-Bold.ttf"),
   ("tagalog", "public/fonts/NotoSansTagalog-Regular.ttf")]

def fontLookup (k : String) : Option String := FONTS.lookup k

/-- Model of `font_for_text` (src/predict.py:118-123).  `fsEx` abstracts the
`Path.exists()` probe of the font file on disk. -/
def font_for_text (fsEx : String → Bool) (text : List Char) : String :=
  let fp := (fontLookup (detect_language text)).getD englishFont
  if fsEx fp then fp else englishFont

/- ------------------ audio mix planner (mix_audio) ------------------ -/

/-- Labels of the audio filter graph: `stream n` is the ffmpeg input stream
`[n:a]` (a declared external input); the rest are the literal labels the
source writes (`[orig]`, `[dlg]`, `[msc]`, `[outa]`). -/
inductive ALabel
  | stream (n : Nat)
  | orig
  | dlg
  | msc
  | outa
deriving DecidableEq, Repr

inductive AOp
  | aformat
  | musicPrep (duration : ℚ) (volume : ℚ)
  | anull
  | amix (inputCount : Nat) (durationPolicy : String) (dropoutTransition : Nat)
deriving DecidableEq, Repr

structure AFilter where
  inputs : List ALabel
  out : ALabel
  op : AOp
deriving DecidableEq, Repr

/-- Outcome of `mix_audio`: a plain `-c copy` run, or a `-filter_complex` run
whose final ffmpeg invocation carries `-t clampT`. -/
inductive MixResult
  | copyOnly
  | filtered (parts : List AFilter) (clampT : ℚ)
deriving DecidableEq, Repr

/-- Model of `mix_audio` (src/predict.py:193-240) as a pure planner over the probed
facts: `hasAudio` is `has_audio_stream(video_in)`, `duration` is
`get_duration(video_in)`, the two `Bool`s are the presence of the optional
dialogue/music files.  Input stream indices follow the source's `idx`
counter. -/
def mix_audio (hasAudio dialogue music : Bool) (duration musicVolume : ℚ) : MixResult :=
  if ¬dialogue ∧ ¬music then .copyOnly
  else
    let origPart : List AFilter :=
      if hasAudio then [⟨[ALabel.stream 0], ALabel.orig, AOp.aformat⟩] else []
    let origLabels : List ALabel := if hasAudio then [ALabel.orig] else []
    let dlgPart : List AFilter :=
      if dialogue then [⟨[ALabel.stream 1], ALabel.dlg, AOp.aformat⟩] else []
    let dlgLabels : List ALabel := if dialogue then [ALabel.dlg] else []
    let idx2 : Nat := if dialogue then 2 else 1
    let mscPart : List AFilter :=
      if music then [⟨[ALabel.stream idx2], ALabel.msc, AOp.musicPrep duration musicVolume⟩] else []
    let mscLabels : List ALabel := if music then [ALabel.msc] else []
    let parts := origPart ++ dlgPart ++ mscPart
    let mixLabels := origLabels ++ dlgLabels ++ mscLabels
    if mixLabels.length = 0 then .copyOnly
    else if mixLabels.length = 1 then
      .filtered (parts ++ [⟨mixLabels, ALabel.outa, AOp.anull⟩]) duration
    else
      .filtered (parts ++ [⟨mixLabels, ALabel.outa, AOp.amix mixLabels.length "longest" 0⟩]) duration

def mixParts : MixResult → List AFilter
  | .copyOnly => []
  | .filtered ps _ => ps

def clampOf : MixResult → Option ℚ
  | .copyOnly => none
  | .filtered _ t => some t

def lastFilter (r : MixResult) : Option AFilter := (mixParts r).getLast?

def isAmixF (f : AFilter) : Bool :=
  match f.op with
  | .amix _ _ _ => true
  | _ => false

def countAmix (r : MixResult) : Nat := (mixParts r).countP isAmixF

/-- The number of effectively present audio sources. -/
def numSources (ha d m : Bool) : Nat :=
  (cond ha 1 0) + (cond d 1 0) + (cond m 1 0)

/-- The source labels normalized and fed into the mix, in source order. -/
def presentLabels (ha d m : Bool) : List ALabel :=
  (if ha then [ALabel.orig] else []) ++ (if d then [ALabel.dlg] else []) ++
    (if m then [ALabel.msc] else [])

/-- The external input-stream labels available to one `mix_audio` invocation:
stream 0 is the base video, streams 1.. are the added audio files. -/
def audioExternals (d m : Bool) : List ALabel :=
  ALabel.stream 0 :: ((if d then [ALabel.stream 1] else []) ++
    (if m then [ALabel.stream (if d then 2 else 1)] else []))

/-- Well-wiredness of a filter-node list: every input of every node was
produced by an earlier node or is in the declared external set. -/
def wiredFromA (produced : List ALabel) : List AFilter → Prop
  | [] => True
  | nd :: rest => (∀ i ∈ nd.inputs, i ∈ produced) ∧ wiredFromA (nd.out :: produced) rest

/- ------------------ video composition graph ------------------ -/

/-- Labels of the video overlay chain: `inv` is the external `[0:v]`, `v n`
the counter-allocated `[v{n}]`, `outv` the terminal `[outv]`. -/
inductive VLabel
  | inv
  | v (n : Nat)
  | outv
deriving DecidableEq, Repr

inductive XPos
  | centered
  | px (n : Int)
deriving DecidableEq, Repr

inductive VOp
  | drawtext (fontfile : String) (text : List Char) (fontsize : Int) (borderw : Int)
      (x : XPos) (y : Int)
  | nullfilter
deriving DecidableEq, Repr

structure VNode where
  inp : VLabel
  out : VLabel
  op : VOp
deriving DecidableEq, Repr

def wiredFromV (produced : List VLabel) : List VNode → Prop
  | [] => True
  | nd :: rest => nd.inp ∈ produced ∧ wiredFromV (nd.out :: produced) rest

/-- The `cur`/`label_idx` accumulation pattern of
`add_branding_and_meme_text` (src/predict.py:288-331): each operation consumes
the current tail label and produces `[v label_idx]`.  Returns the nodes, the
final tail label and the final counter value. -/
def overlayChain (cur : VLabel) (idx : Nat) : List VOp → List VNode × VLabel × Nat
  | [] => ([], cur, idx)
  | op :: rest =>
      let tail := overlayChain (VLabel.v idx) (idx + 1) rest
      (⟨cur, VLabel.v idx, op⟩ :: tail.1, tail.2)

/-- Assembly shared by every branch of `add_branding_and_meme_text`: the
overlay chain starting at `[0:v]` with the counter at 1, closed by one final
node that writes `[outv]` from the chain's tail label. -/
def assembleGraph (ops : List VOp) (finalOp : VOp) : List VNode :=
  let chainRes := overlayChain VLabel.inv 1 ops
  chainRes.1 ++ [⟨chainRes.2.1, VLabel.outv, finalOp⟩]

def brandText : List Char := "luna.fun/memes/".data

/-- Measured prefix width `int(len(prefix) * 0.58 * brand_size)` = `int(15 * 0.58 * 18)` = 156; the
float product and the exact rational floor agree here. -/
def brandTextWidth : Int := (Int.ofNat brandText.length * 58 * 18) / 100

/-- Lines drawn per block: `[ln for ln in wrap_text_simple(text, 35).split("\n") if ln.strip()]`. -/
def displayLines (text : List Char) : List (List Char) :=
  (splitOnChar '\n' (joinSep '\n' (wrapLines text 35))).filter
    (fun ln => !(pyStripList ln).isEmpty)

/-- Model of `add_branding_and_meme_text` (src/predict.py:242-355) as a graph builder:
`h` is the probed frame height, `fsEx` the on-disk font probe.  Constant
drawtext parameters shared by every node (colors, shadow) are omitted; the
per-node font file, escaped text, font size, border width and position are
kept.  Divisions mirror the source's `int(...)` floors. -/
def add_branding_and_meme_text (fsEx : String → Bool) (h : Int)
    (project top bottom : List Char) (branding : Bool) : List VNode :=
  let memeFont := font_for_text fsEx (top ++ ' ' :: bottom)
  let projFont := font_for_text fsEx project
  let topLs := displayLines top
  let botLs := displayLines bottom
  let maxLines : Int :=
    max (max (if top ≠ [] then (topLs.length : Int) else 1)
             (if bottom ≠ [] then (botLs.length : Int) else 1)) 1
  let fontSize : Int := max 18 (h / (14 + (maxLines - 1) * 2))
  let stroke : Int := max 2 (fontSize / 10)
  let lineH : Int := (fontSize * 13) / 10
  let topPad : Int := (h * 4) / 100
  let bottomOffset : Int := (h * 8) / 100
  let brandY : Int := h - 18 - 20
  let projY : Int := if detect_language project = "english" then brandY else brandY - 2
  let topOps : List VOp :=
    if pyStripList top ≠ [] then
      topLs.enum.map (fun p =>
        VOp.drawtext memeFont (escape_drawtext p.2) fontSize stroke XPos.centered
          (topPad + (p.1 : Int) * lineH))
    else []
  let botOps : List VOp :=
    if pyStripList bottom ≠ [] then
      botLs.enum.map (fun p =>
        VOp.drawtext memeFont (escape_drawtext p.2) fontSize stroke XPos.centered
          (h - (botLs.length : Int) * lineH - bottomOffset + (p.1 : Int) * lineH))
    else []
  let brandOps : List VOp :=
    if branding then
      [VOp.drawtext englishFont (escape_drawtext brandText) 18 1 (XPos.px 20) brandY]
    else []
  let finalOp : VOp :=
    if branding ∧ pyStripList project ≠ [] then
      VOp.drawtext projFont (escape_drawtext project) 18 1 (XPos.px (20 + brandTextWidth)) projY
    else VOp.nullfilter
  assembleGraph (topOps ++ botOps ++ brandOps) finalOp

/- ------------------ Predictor.predict control flow ------------------ -/

/-- The inputs of `Predictor.predict` (src/predict.py:360-384), all strings
defaulting to empty in the source. -/
structure Request where
  final_stitch_video : String
  final_stitched_video : String
  scene1_url : String
  scene2_url : String
  scene3_url : String
  final_dialogue : String
  final_music_url : String
  meme_top_text : String
  meme_bottom_text : String
  meme_project_name : String
  include_branding : Bool
  meme_id : String
  max_duration_seconds : Nat
deriving DecidableEq, Repr

/-- Externally observable steps of one `predict` call.  `download` is an asset
fetch, `probe*` are the three ffprobe-backed queries, `ffmpegRun` an encode or
copy invocation, `mixCall d m` records which optional tracks are handed to
`mix_audio`, `valError` a raised `ValueError`, and `unlinkTemp` a deletion of
a scratch file (the source only ever unlinks `concat_videos`' re-encode
temporaries; the per-request work directory is never removed). -/
inductive Event
  | download (name : String)
  | ffmpegRun (desc : String)
  | probeDims
  | probeDuration
  | probeAudio
  | mixCall (dialoguePassed musicPassed : Bool)
  | valError (msg : String)
  | unlinkTemp (name : String)
deriving DecidableEq, Repr

/-- Guard of `dl_if` (src/predict.py:397-403): a URL is fetched iff it is
non-blank after stripping. -/
def present (s : String) : Bool := !(pyStripList s.data).isEmpty

/-- Events inside one `mix_audio` call (src/predict.py:193-240): an early
plain copy when no optional track was passed, otherwise a duration probe, an
audio-stream probe and the filter run. -/
def mixEvents (d m : Bool) : List Event :=
  if !d && !m then [Event.ffmpegRun "copy"]
  else [Event.probeDuration, Event.probeAudio, Event.ffmpegRun "mix"]

/-- Events of `concat_videos` (src/predict.py:164-191): three re-encodes, the
concat run, then removal of its own temporaries. -/
def concatEvents : List Event :=
  [Event.ffmpegRun "reencode-scene1", Event.ffmpegRun "reencode-scene2",
   Event.ffmpegRun "reencode-scene3", Event.ffmpegRun "concat",
   Event.unlinkTemp "rec_0", Event.unlinkTemp "rec_1", Event.unlinkTemp "rec_2",
   Event.unlinkTemp "concat_list"]

/-- Events of `add_branding_and_meme_text`: the dimension probe and the
drawtext run. -/
def brandingEvents : List Event := [Event.probeDims, Event.ffmpegRun "drawtext"]

/-- Python truthiness of `scene1_url and scene2_url and scene3_url`
(src/predict.py:395): all three non-empty, without stripping. -/
def useStitchB (req : Request) : Bool :=
  !req.scene1_url.isEmpty && !req.scene2_url.isEmpty && !req.scene3_url.isEmpty

/-- Python `final_stitch_video or final_stitched_video` (src/predict.py:424). -/
def effSrc (req : Request) : String :=
  if !req.final_stitch_video.isEmpty then req.final_stitch_video
  else req.final_stitched_video

def scenesOkB (req : Request) : Bool :=
  present req.scene1_url && present req.scene2_url && present req.scene3_url

/-- The event trace of `Predictor.predict` (src/predict.py:385-486) under the
assumption that every external operation (fetch, probe, encode) succeeds; the
trace stops at the first raised `ValueError`.  Order follows the source:
dialogue and music downloads first, then the stitch/single branch, then the
branding pass.  Metadata and zip writes emit no events. -/
def predictTrace (req : Request) : List Event :=
  let dP := present req.final_dialogue
  let mP := present req.final_music_url
  let audioDl := (if dP then [Event.download "dialogue"] else []) ++
    (if mP then [Event.download "music"] else [])
  if useStitchB req then
    let p1 := present req.scene1_url
    let p2 := present req.scene2_url
    let p3 := present req.scene3_url
    let sceneDl := (if p1 then [Event.download "scene1"] else []) ++
      (if p2 then [Event.download "scene2"] else []) ++
      (if p3 then [Event.download "scene3"] else [])
    if p1 && p2 && p3 then
      audioDl ++ sceneDl ++ concatEvents ++
        (Event.mixCall false mP :: mixEvents false mP) ++ brandingEvents
    else audioDl ++ sceneDl ++ [Event.valError "scene urls required"]
  else
    if present (effSrc req) then
      audioDl ++ [Event.download "video", Event.ffmpegRun "trim-or-copy"] ++
        (if dP || mP then Event.mixCall dP mP :: mixEvents dP mP else []) ++ brandingEvents
    else audioDl ++ [Event.valError "no source provided"]

def probeEvent : Event → Bool
  | .probeDims => true
  | .probeDuration => true
  | .probeAudio => true
  | _ => false

def isValErrorB : Event → Bool
  | .valError _ => true
  | _ => false

def isUnlinkB : Event → Bool
  | .unlinkTemp _ => true
  | _ => false

/-- The number of clip references a request supplies (counting the single-clip
slot and each scene slot that carries a non-blank URL). -/
def clipRefsSupplied (req : Request) : Nat :=
  (if present req.final_stitch_video || present req.final_stitched_video then 1 else 0) +
    (if present req.scene1_url then 1 else 0) +
    (if present req.scene2_url then 1 else 0) +
    (if present req.scene3_url then 1 else 0)

/- ------------------ scratch directory ------------------ -/

theorem lengthDropWhileLe (p : Char → Bool) (l : List Char) :
    (l.dropWhile p).length ≤ l.length := by
  induction l with
  | nil => simp
  | cons c rest ih =>
      by_cases h : p c = true
      · simp [List.dropWhile, h]; omega
      · simp [List.dropWhile, h]

/-- Inner step of `safe_slug`: `re.sub(r"\s+", "-", s)`. -/
def squashWs : List Char → List Char
  | [] => []
  | c :: rest =>
      if isPySpace c then '-' :: squashWs (rest.dropWhile isPySpace)
      else c :: squashWs rest
termination_by l => l.length
decreasing_by
  all_goals simp_wf
  all_goals have := lengthDropWhileLe isPySpace rest
  all_goals omega

def isAllowedSlugChar (c : Char) : Bool :=
  decide ('a' ≤ c ∧ c ≤ 'z') || decide ('A' ≤ c ∧ c ≤ 'Z') ||
    decide ('0' ≤ c ∧ c ≤ '9') || c == '.' || c == '_' || c == '-'

def isSlugEdgeTrim (c : Char) : Bool := c == '.' || c == '_' || c == '-'

/-- Model of `safe_slug` (src/predict.py:77-84). -/
def safe_slug (s : String) (fallback : String) : String :=
  let t := pyStripList s.data
  if t = [] then fallback
  else
    let t1 := squashWs t
    let t2 := t1.filter isAllowedSlugChar
    let t3 := ((t2.dropWhile isSlugEdgeTrim).reverse.dropWhile isSlugEdgeTrim).reverse
    if t3 = [] then fallback else String.mk (t3.take 80)

/-- The per-request scratch directory (src/predict.py:390-392):
`TEMP_DIR / f"{safe_slug(meme_id)}_{int(time.time())}"` — a function of the
meme id and the wall-clock second only. -/
def workDirFor (req : Request) (epochSecond : Nat) : String :=
  "/tmp/clipforge/" ++ safe_slug req.meme_id "clipforge" ++ "_" ++ toString epochSecond

/-- A request with every input left at its source default. -/
def reqEmpty : Request :=
  { final_stitch_video := "", final_stitched_video := "", scene1_url := "", scene2_url := "",
    scene3_url := "", final_dialogue := "", final_music_url := "", meme_top_text := "",
    meme_bottom_text := "", meme_project_name := "", include_branding := true,
    meme_id := "clipforge", max_duration_seconds := 0 }

/-- Two clip references supplied: a single-mode URL plus one scene URL. -/
def reqTwoClips : Request :=
  { reqEmpty with final_stitch_video := "http://host/a.mp4", scene1_url := "http://host/b.mp4" }

/-- Stitch mode with a dialogue track and no music. -/
def reqStitchDialogue : Request :=
  { reqEmpty with
      scene1_url := "http://host/s1.mp4"
      scene2_url := "http://host/s2.mp4"
      scene3_url := "http://host/s3.mp4"
      final_dialogue := "http://host/d.mp3" }

/-- Single-clip request with no optional tracks. -/
def reqSingleA : Request := { reqEmpty with final_stitch_video := "http://host/a.mp4" }

/-- Single-clip request that differs from `reqSingleA` only by a music track. -/
def reqSingleMusic : Request :=
  { reqSingleA with final_music_url := "http://host/m.mp3" }

/- ==================== lemmas: escaping layer ==================== -/

theorem rep1_append (pat : Char) (repl : List Char) :
    ∀ a b : List Char, rep1 pat repl (a ++ b) = rep1 pat repl a ++ rep1 pat repl b := by
  intro a b
  induction a with
  | nil => simp [rep1]
  | cons c rest ih => simp [rep1, ih]

theorem escape_append (a b : List Char) :
    escape_drawtext (a ++ b) = escape_drawtext a ++ escape_drawtext b := by
  simp [escape_drawtext, rep1_append]

theorem escape_single (c : Char) : escape_drawtext [c] = escCode c := by
  by_cases h1 : c = bslash
  · subst h1; decide
  by_cases h2 : c = quoteC
  · subst h2; decide
  by_cases h3 : c = ':'
  · subst h3; decide
  by_cases h4 : c = lbrC
  · subst h4; decide
  by_cases h5 : c = rbrC
  · subst h5; decide
  by_cases h6 : c = ','
  · subst h6; decide
  by_cases h7 : c = ';'
  · subst h7; decide
  by_cases h8 : c = '\n'
  · subst h8; decide
  simp [escape_drawtext, escCode, rep1, h1, h2, h3, h4, h5, h6, h7, h8]

theorem escape_cons (c : Char) (l : List Char) :
    escape_drawtext (c :: l) = escCode c ++ escape_drawtext l := by
  have h : (c :: l) = [c] ++ l := rfl
  rw [h, escape_append, escape_single]

theorem escCode_head (c : Char) : ∃ d t, escCode c = d :: t ∧ d ≠ quoteC := by
  by_cases h1 : c = bslash
  · subst h1; exact ⟨bslash, [bslash], by decide, by decide⟩
  by_cases h2 : c = quoteC
  · subst h2; exact ⟨bslash, [bslash, quoteC], by decide, by decide⟩
  by_cases h3 : c = ':'
  · subst h3; exact ⟨bslash, [':'], by decide, by decide⟩
  by_cases h4 : c = lbrC
  · subst h4; exact ⟨bslash, [lbrC], by decide, by decide⟩
  by_cases h5 : c = rbrC
  · subst h5; exact ⟨bslash, [rbrC], by decide, by decide⟩
  by_cases h6 : c = ','
  · subst h6; exact ⟨bslash, [','], by decide, by decide⟩
  by_cases h7 : c = ';'
  · subst h7; exact ⟨bslash, [';'], by decide, by decide⟩
  by_cases h8 : c = '\n'
  · subst h8; exact ⟨bslash, ['n'], by decide, by decide⟩
  refine ⟨c, [], ?_, h2⟩
  simp [escCode, h1, h2, h3, h4, h5, h6, h7, h8]

theorem escape_head (l : List Char) :
    escape_drawtext l = [] ∨ ∃ d t, escape_drawtext l = d :: t ∧ d ≠ quoteC := by
  cases l with
  | nil => left; rfl
  | cons c rest =>
      right
      obtain ⟨d, t, hdt, hd⟩ := escCode_head c
      exact ⟨d, t ++ escape_drawtext rest, by rw [escape_cons, hdt]; rfl, hd⟩

theorem escape_join (s : List Char) : escape_drawtext s = (s.map escCode).flatten := by
  induction s with
  | nil => rfl
  | cons c rest ih => rw [escape_cons, ih]; simp

theorem unescape_cons2 (c1 c2 : Char) (rest : List Char) :
    unescape_drawtext (c1 :: c2 :: rest) =
      if c1 = bslash then
        if c2 = bslash then
          if rest.head? = some quoteC then quoteC :: unescape_drawtext rest.tail
          else bslash :: unescape_drawtext rest
        else if c2 = 'n' then '\n' :: unescape_drawtext rest
        else c2 :: unescape_drawtext rest
      else c1 :: unescape_drawtext (c2 :: rest) := by
  simp [unescape_drawtext]

theorem unesc_quote_code (rest : List Char) :
    unescape_drawtext (bslash :: bslash :: quoteC :: rest) = quoteC :: unescape_drawtext rest := by
  rw [unescape_cons2]; simp

theorem unesc_bslash_code (rest : List Char) (h : rest.head? ≠ some quoteC) :
    unescape_drawtext (bslash :: bslash :: rest) = bslash :: unescape_drawtext rest := by
  rw [unescape_cons2]; simp [h]

theorem unesc_escaped_code (c : Char) (rest : List Char) (hb : c ≠ bslash) (hn : c ≠ 'n') :
    unescape_drawtext (bslash :: c :: rest) = c :: unescape_drawtext rest := by
  rw [unescape_cons2]; simp [hb, hn]

theorem unesc_nl_code (rest : List Char) :
    unescape_drawtext (bslash :: 'n' :: rest) = '\n' :: unescape_drawtext rest := by
  rw [unescape_cons2]
  simp [show ('n' : Char) ≠ bslash from by decide]

theorem unesc_plain (c : Char) (rest : List Char) (hb : c ≠ bslash) :
    unescape_drawtext (c :: rest) = c :: unescape_drawtext rest := by
  cases rest with
  | nil => simp [unescape_drawtext]
  | cons d t => rw [unescape_cons2]; simp [hb]

theorem unescape_escape (l : List Char) :
    unescape_drawtext (escape_drawtext l) = l := by
  induction l with
  | nil =>
      rw [show escape_drawtext [] = [] from rfl]
      simp [unescape_drawtext]
  | cons c rest ih =>
      rw [escape_cons]
      by_cases h1 : c = bslash
      · subst h1
        show unescape_drawtext (bslash :: bslash :: escape_drawtext rest) = _
        have hne : (escape_drawtext rest).head? ≠ some quoteC := by
          rcases escape_head rest with hE | ⟨d, t, hE, hd⟩
          · simp [hE]
          · simp [hE, hd]
        rw [unesc_bslash_code _ hne, ih]
      by_cases h2 : c = quoteC
      · subst h2
        show unescape_drawtext (bslash :: bslash :: quoteC :: escape_drawtext rest) = _
        rw [unesc_quote_code, ih]
      by_cases h3 : c = ':'
      · subst h3
        show unescape_drawtext (bslash :: ':' :: escape_drawtext rest) = _
        rw [unesc_escaped_code _ _ (by decide) (by decide), ih]
      by_cases h4 : c = lbrC
      · subst h4
        show unescape_drawtext (bslash :: lbrC :: escape_drawtext rest) = _
        rw [unesc_escaped_code _ _ (by decide) (by decide), ih]
      by_cases h5 : c = rbrC
      · subst h5
        show unescape_drawtext (bslash :: rbrC :: escape_drawtext rest) = _
        rw [unesc_escaped_code _ _ (by decide) (by decide), ih]
      by_cases h6 : c = ','
      · subst h6
        show unescape_drawtext (bslash :: ',' :: escape_drawtext rest) = _
        rw [unesc_escaped_code _ _ (by decide) (by decide), ih]
      by_cases h7 : c = ';'
      · subst h7
        show unescape_drawtext (bslash :: ';' :: escape_drawtext rest) = _
        rw [unesc_escaped_code _ _ (by decide) (by decide), ih]
      by_cases h8 : c = '\n'
      · subst h8
        show unescape_drawtext (bslash :: 'n' :: escape_drawtext rest) = _
        rw [unesc_nl_code, ih]
      · have hc : escCode c = [c] := by simp [escCode, h1, h2, h3, h4, h5, h6, h7, h8]
        rw [hc]
        show unescape_drawtext (c :: escape_drawtext rest) = _
        rw [unesc_plain _ _ h1, ih]

theorem scan_bslash2 (metas : List Char) (x : Char) (rest : List Char) :
    scanUnescaped metas (bslash :: x :: rest) = scanUnescaped metas rest := by
  simp [scanUnescaped]

theorem scan_plain (metas : List Char) (c : Char) (rest : List Char)
    (hb : c ≠ bslash) (hm : c ∉ metas) :
    scanUnescaped metas (c :: rest) = scanUnescaped metas rest := by
  cases rest with
  | nil => simp [scanUnescaped, hb, hm]
  | cons d t => simp [scanUnescaped, hb, hm]

theorem scan_code_noquote (c : Char) (t : List Char) :
    scanUnescaped metaNoQuote (escCode c ++ t) = scanUnescaped metaNoQuote t := by
  by_cases h1 : c = bslash
  · subst h1
    show scanUnescaped metaNoQuote (bslash :: bslash :: t) = _
    rw [scan_bslash2]
  by_cases h2 : c = quoteC
  · subst h2
    show scanUnescaped metaNoQuote (bslash :: bslash :: quoteC :: t) = _
    rw [scan_bslash2, scan_plain _ _ _ (by decide) (by decide)]
  by_cases h3 : c = ':'
  · subst h3
    show scanUnescaped metaNoQuote (bslash :: ':' :: t) = _
    rw [scan_bslash2]
  by_cases h4 : c = lbrC
  · subst h4
    show scanUnescaped metaNoQuote (bslash :: lbrC :: t) = _
    rw [scan_bslash2]
  by_cases h5 : c = rbrC
  · subst h5
    show scanUnescaped metaNoQuote (bslash :: rbrC :: t) = _
    rw [scan_bslash2]
  by_cases h6 : c = ','
  · subst h6
    show scanUnescaped metaNoQuote (bslash :: ',' :: t) = _
    rw [scan_bslash2]
  by_cases h7 : c = ';'
  · subst h7
    show scanUnescaped metaNoQuote (bslash :: ';' :: t) = _
    rw [scan_bslash2]
  by_cases h8 : c = '\n'
  · subst h8
    show scanUnescaped metaNoQuote (bslash :: 'n' :: t) = _
    rw [scan_bslash2]
  · have hc : escCode c = [c] := by simp [escCode, h1, h2, h3, h4, h5, h6, h7, h8]
    rw [hc]
    show scanUnescaped metaNoQuote (c :: t) = _
    refine scan_plain _ _ _ h1 ?_
    simp [metaNoQuote, h1, h3, h4, h5, h6, h7, h8]

theorem escape_scan_noquote (s : List Char) :
    scanUnescaped metaNoQuote (escape_drawtext s) = false := by
  induction s with
  | nil =>
      rw [show escape_drawtext [] = [] from rfl]
      simp [scanUnescaped]
  | cons c rest ih => rw [escape_cons, scan_code_noquote]; exact ih

/-- Claim C7 counterexample: the claim asserts the escaped output contains no
unescaped metacharacter, but `escape_drawtext` renders a single quote as
`\\'` — an escaped backslash followed by a bare quote — so the escaped form of
the one-character string `'` still contains an unescaped quote. -/
theorem c7_counterexample : scanUnescaped metaAll (escape_drawtext [quoteC]) = true := by
  rw [show escape_drawtext [quoteC] = [bslash, bslash, quoteC] from by decide, scan_bslash2]
  simp [scanUnescaped]
  decide

/-- Claim C7 (amended): `escape_drawtext` protects the backslash first and
equals the per-character code map (so no character introduced by an earlier
substitution is ever re-escaped), the output contains no unescaped
metacharacter other than the single quote, and escaping is lossless — the
decoder recovers the original string, hence `escape_drawtext` is injective. -/
theorem c7_escape_amended (s : List Char) :
    escape_drawtext s = (s.map escCode).flatten ∧
    scanUnescaped metaNoQuote (escape_drawtext s) = false ∧
    unescape_drawtext (escape_drawtext s) = s :=
  ⟨escape_join s, escape_scan_noquote s, unescape_escape s⟩

/- ==================== lemmas: text layout engine ==================== -/

theorem chunk_length (maxChars : Nat) :
    ∀ (fuel : Nat) (l : List Char), ∀ c ∈ chunkFuel maxChars fuel l, c.length ≤ maxChars := by
  intro fuel
  induction fuel with
  | zero =>
      intro l c hc
      cases l <;> simp [chunkFuel] at hc
  | succ f ih =>
      intro l c hc
      cases l with
      | nil => simp [chunkFuel] at hc
      | cons a t =>
          simp only [chunkFuel, List.mem_cons] at hc
          rcases hc with h | h
          · subst h; simp [List.length_take]
          · exact ih _ _ h

theorem splitOnChar_unfold (sep c : Char) (rest : List Char) :
    splitOnChar sep (c :: rest) =
      if c = sep then [] :: splitOnChar sep rest
      else
        match splitOnChar sep rest with
        | [] => [[c]]
        | w :: ws => (c :: w) :: ws := rfl

theorem splitOnChar_no_sep (sep : Char) :
    ∀ l : List Char, ∀ w ∈ splitOnChar sep l, sep ∉ w := by
  intro l
  induction l with
  | nil =>
      intro w hw
      simp [splitOnChar] at hw
      simp [hw]
  | cons c rest ih =>
      intro w hw
      rw [splitOnChar_unfold] at hw
      by_cases hc : c = sep
      · rw [if_pos hc] at hw
        rcases List.mem_cons.mp hw with h | h
        · simp [h]
        · exact ih w h
      · rw [if_neg hc] at hw
        cases hr : splitOnChar sep rest with
        | nil => rw [hr] at hw; simp at hw; simp [hw]; exact fun hs => hc hs.symm
        | cons w0 ws0 =>
            rw [hr] at hw
            rcases List.mem_cons.mp hw with h | h
            · subst h
              intro hmem
              rcases List.mem_cons.mp hmem with h1 | h1
              · exact hc h1.symm
              · exact ih w0 (hr ▸ List.mem_cons_self w0 ws0) h1
            · exact ih w (hr ▸ List.mem_cons_of_mem w0 h)

theorem wrapGo_unfold (maxChars : Nat) (cur w : List Char) (ws : List (List Char)) :
    wrapGo maxChars cur (w :: ws) =
      if maxChars < (if cur = [] then w else pyStripList (cur ++ ' ' :: w)).length ∧ cur ≠ []
      then cur :: wrapGo maxChars w ws
      else wrapGo maxChars (if cur = [] then w else pyStripList (cur ++ ' ' :: w)) ws := rfl

theorem wrapGo_line_bound (maxChars : Nat) :
    ∀ (ws : List (List Char)) (cur : List Char),
      (∀ w ∈ ws, ' ' ∉ w) → (cur.length ≤ maxChars ∨ ' ' ∉ cur) →
      ∀ l ∈ wrapGo maxChars cur ws, l.length ≤ maxChars ∨ ' ' ∉ l := by
  intro ws
  induction ws with
  | nil =>
      intro cur _ hcur l hl
      by_cases hc : cur = []
      · simp [wrapGo, hc] at hl
      · simp [wrapGo, hc] at hl
        subst hl; exact hcur
  | cons w ws ih =>
      intro cur hws hcur l hl
      rw [wrapGo_unfold] at hl
      have hw : ' ' ∉ w := hws w (List.mem_cons_self w ws)
      have hws' : ∀ u ∈ ws, ' ' ∉ u := fun u hu => hws u (List.mem_cons_of_mem w hu)
      by_cases hcond : maxChars < (if cur = [] then w else pyStripList (cur ++ ' ' :: w)).length ∧ cur ≠ []
      · rw [if_pos hcond] at hl
        rcases List.mem_cons.mp hl with h | h
        · subst h; exact hcur
        · exact ih w hws' (Or.inr hw) l h
      · rw [if_neg hcond] at hl
        by_cases hce : cur = []
        · rw [if_pos hce] at hl
          exact ih w hws' (Or.inr hw) l hl
        · rw [if_neg hce] at hl
          have hlen : (pyStripList (cur ++ ' ' :: w)).length ≤ maxChars := by
            by_contra hgt
            exact hcond ⟨by rw [if_neg hce]; omega, hce⟩
          exact ih _ hws' (Or.inl hlen) l hl

/-- Claim C4 counterexample: the claim allows an overlong line only when the
whole text is a single space-free token (then hard-split); but for the
two-word text `"a " ++ "b"*36` with limit 35 the source emits the 36-character
second word unbroken on its own overlong line. -/
theorem c4_counterexample :
    (' ' ∈ ('a' :: ' ' :: List.replicate 36 'b')) ∧
    (∃ l ∈ wrapLines ('a' :: ' ' :: List.replicate 36 'b') 35, 35 < l.length) := by
  decide

/-- Claim C4 (amended): for a positive limit, every line `wrap` produces
either fits in `maxCharsPerLine` or is a single space-free token left
unbroken; the fixed-width hard-split happens only in the single-token case
(where it does yield chunks within the limit — see the `chunk_length`
branch). -/
theorem c4_wrap_line_bound (text : List Char) (maxChars : Nat) (_hpos : 0 < maxChars) :
    ∀ l ∈ wrapLines text maxChars, l.length ≤ maxChars ∨ ' ' ∉ l := by
  intro l hl
  unfold wrapLines at hl
  by_cases ht : text = []
  · simp [ht] at hl
  · rw [if_neg ht] at hl
    by_cases hw : (splitOnChar ' ' text).length ≤ 1
    · rw [if_pos hw] at hl
      exact Or.inl (chunk_length maxChars text.length text l (by simpa [hardChunks] using hl))
    · rw [if_neg hw] at hl
      exact wrapGo_line_bound maxChars (splitOnChar ' ' text) [] (splitOnChar_no_sep ' ' text)
        (Or.inr (by simp)) l hl

theorem c4_wrap_line_bound_witness :
    0 < 35 ∧ ∀ l ∈ wrapLines "hello world".data 35, l.length ≤ 35 ∨ ' ' ∉ l :=
  ⟨by decide, c4_wrap_line_bound "hello world".data 35 (by decide)⟩

theorem joinSep_cons (sep : Char) (w : List Char) (ws : List (List Char)) (h : ws ≠ []) :
    joinSep sep (w :: ws) = w ++ sep :: joinSep sep ws := by
  cases ws with
  | nil => exact absurd rfl h
  | cons d t => rfl

theorem splitOnChar_ne_nil (sep : Char) : ∀ l : List Char, splitOnChar sep l ≠ [] := by
  intro l
  cases l with
  | nil => simp [splitOnChar]
  | cons c rest =>
      rw [splitOnChar_unfold]
      by_cases hc : c = sep
      · simp [hc]
      · rw [if_neg hc]
        cases splitOnChar sep rest <;> simp

theorem joinSep_splitOnChar (sep : Char) :
    ∀ l : List Char, joinSep sep (splitOnChar sep l) = l := by
  intro l
  induction l with
  | nil => rfl
  | cons c rest ih =>
      rw [splitOnChar_unfold]
      by_cases hc : c = sep
      · rw [if_pos hc]
        cases hr : splitOnChar sep rest with
        | nil => exact absurd hr (splitOnChar_ne_nil sep rest)
        | cons w ws =>
            rw [joinSep_cons sep [] (w :: ws) (by simp)]
            rw [← hr, ih, hc]
            rfl
      · rw [if_neg hc]
        cases hr : splitOnChar sep rest with
        | nil => exact absurd hr (splitOnChar_ne_nil sep rest)
        | cons w ws =>
            cases ws with
            | nil =>
                have hww : w = rest := by
                  have h3 := ih
                  rw [hr] at h3
                  simpa [joinSep] using h3
                show joinSep sep [c :: w] = c :: rest
                simp [joinSep, hww]
            | cons w2 ws2 =>
                rw [joinSep_cons sep (c :: w) (w2 :: ws2) (by simp)]
                have h2 : joinSep sep (w :: w2 :: ws2) = w ++ sep :: joinSep sep (w2 :: ws2) :=
                  joinSep_cons sep w (w2 :: ws2) (by simp)
                have h3 : joinSep sep (splitOnChar sep rest) = rest := ih
                rw [hr, h2] at h3
                calc (c :: w) ++ sep :: joinSep sep (w2 :: ws2)
                    = c :: (w ++ sep :: joinSep sep (w2 :: ws2)) := by simp
                  _ = c :: rest := by rw [h3]

theorem head?_append_left (a b : List Char) (h : a ≠ []) : (a ++ b).head? = a.head? := by
  cases a with
  | nil => exact absurd rfl h
  | cons x t => rfl

theorem getLast?_append_right (a b : List Char) (h : b ≠ []) :
    (a ++ b).getLast? = b.getLast? := by
  rw [← List.head?_reverse, ← List.head?_reverse, List.reverse_append]
  exact head?_append_left _ _ (by simpa using h)

theorem pyStripList_eq_self (l : List Char)
    (h1 : ∀ c, l.head? = some c → isPySpace c = false)
    (h2 : ∀ c, l.getLast? = some c → isPySpace c = false) :
    pyStripList l = l := by
  unfold pyStripList
  have hd : l.dropWhile isPySpace = l := by
    cases l with
    | nil => rfl
    | cons a t => rw [List.dropWhile_cons]; simp [h1 a rfl]
  rw [hd]
  have hrev : l.reverse.dropWhile isPySpace = l.reverse := by
    cases hr : l.reverse with
    | nil => rfl
    | cons a t =>
        rw [List.dropWhile_cons]
        have ha : l.getLast? = some a := by rw [← List.head?_reverse, hr]; rfl
        simp [h2 a ha]
  rw [hrev, List.reverse_reverse]

theorem wordOK_head (w : List Char) (hw : wordOK w) :
    ∀ c, w.head? = some c → isPySpace c = false := by
  intro c hc
  exact hw.2 c (by cases w with | nil => simp at hc | cons a t => simp at hc; simp [hc])

theorem wordOK_last (w : List Char) (hw : wordOK w) :
    ∀ c, w.getLast? = some c → isPySpace c = false := by
  intro c hc
  obtain ⟨h, hx⟩ := List.mem_getLast?_eq_getLast (l := w) (x := c) hc
  exact hw.2 c (hx ▸ List.getLast_mem h)

theorem strip_word_append (cur w : List Char)
    (hcur : cur ≠ []) (hch : ∀ c, cur.head? = some c → isPySpace c = false)
    (hw : wordOK w) :
    pyStripList (cur ++ ' ' :: w) = cur ++ ' ' :: w := by
  refine pyStripList_eq_self _ ?_ ?_
  · intro c hc
    rw [head?_append_left _ _ hcur] at hc
    exact hch c hc
  · intro c hc
    rw [getLast?_append_right _ _ (by simp)] at hc
    have : (' ' :: w).getLast? = w.getLast? := by
      have := getLast?_append_right [' '] w hw.1
      simpa using this
    rw [this] at hc
    exact wordOK_last w hw c hc

theorem wrapGo_join (maxChars : Nat) :
    ∀ (ws : List (List Char)) (cur : List Char),
      (∀ w ∈ ws, wordOK w) → cur ≠ [] →
      (∀ c, cur.head? = some c → isPySpace c = false) →
      (∀ c, cur.getLast? = some c → isPySpace c = false) →
      wrapGo maxChars cur ws ≠ [] ∧
        joinSep ' ' (wrapGo maxChars cur ws) = joinSep ' ' (cur :: ws) := by
  intro ws
  induction ws with
  | nil =>
      intro cur _ hcur _ _
      constructor
      · simp [wrapGo, hcur]
      · simp [wrapGo, hcur]
  | cons w ws ih =>
      intro cur hws hcur hch hcl
      have hw : wordOK w := hws w (List.mem_cons_self w ws)
      have hws' : ∀ u ∈ ws, wordOK u := fun u hu => hws u (List.mem_cons_of_mem w hu)
      have htest : (if cur = [] then w else pyStripList (cur ++ ' ' :: w)) = cur ++ ' ' :: w := by
        rw [if_neg hcur]
        exact strip_word_append cur w hcur hch hw
      rw [wrapGo_unfold, htest]
      by_cases hcond : maxChars < (cur ++ ' ' :: w).length ∧ cur ≠ []
      · rw [if_pos hcond]
        have hrec := ih w hws' hw.1 (wordOK_head w hw) (wordOK_last w hw)
        constructor
        · simp
        · rw [joinSep_cons ' ' cur _ hrec.1, hrec.2,
              joinSep_cons ' ' cur (w :: ws) (by simp)]
      · rw [if_neg hcond]
        have hne : cur ++ ' ' :: w ≠ [] := by simp
        have hh : ∀ c, (cur ++ ' ' :: w).head? = some c → isPySpace c = false := by
          intro c hc
          rw [head?_append_left _ _ hcur] at hc
          exact hch c hc
        have hlast : ∀ c, (cur ++ ' ' :: w).getLast? = some c → isPySpace c = false := by
          intro c hc
          rw [getLast?_append_right _ _ (by simp)] at hc
          have hgl : (' ' :: w).getLast? = w.getLast? := by
            have := getLast?_append_right [' '] w hw.1
            simpa using this
          rw [hgl] at hc
          exact wordOK_last w hw c hc
        have hrec := ih (cur ++ ' ' :: w) hws' hne hh hlast
        refine ⟨hrec.1, ?_⟩
        rw [hrec.2]
        cases ws with
        | nil =>
            show joinSep ' ' [cur ++ ' ' :: w] = joinSep ' ' [cur, w]
            show cur ++ ' ' :: w = joinSep ' ' [cur, w]
            rw [joinSep_cons ' ' cur [w] (by simp)]
            rfl
        | cons w2 ws2 =>
            rw [joinSep_cons ' ' (cur ++ ' ' :: w) (w2 :: ws2) (by simp),
                joinSep_cons ' ' cur (w :: w2 :: ws2) (by simp),
                joinSep_cons ' ' w (w2 :: ws2) (by simp)]
            simp

/-- Claim C10 counterexample: a single 36-character word is itself "non-empty
words separated by single spaces", yet `wrap` hard-splits it and re-joining
the lines with spaces does not recover the text. -/
theorem c10_counterexample :
    (∀ w ∈ splitOnChar ' ' (List.replicate 36 'a'), wordOK w) ∧
    joinSep ' ' (wrapLines (List.replicate 36 'a') 35) ≠ List.replicate 36 'a' := by
  constructor
  · decide
  · decide

/-- Claim C10 (amended): for a text made of at least two non-empty
whitespace-free words separated by single spaces, joining `wrap`'s lines with
single spaces yields exactly the original text (wrapping only turns some
inter-word spaces into line breaks).  With a single word the hard-split branch
can cut the token itself (see the counterexample). -/
theorem c10_wrap_join (text : List Char) (maxChars : Nat)
    (hlen : 2 ≤ (splitOnChar ' ' text).length)
    (hwords : ∀ w ∈ splitOnChar ' ' text, wordOK w) :
    joinSep ' ' (wrapLines text maxChars) = text := by
  have htext : text ≠ [] := by
    intro h
    rw [h] at hlen
    simp [splitOnChar] at hlen
  unfold wrapLines
  rw [if_neg htext, if_neg (by omega)]
  cases hs : splitOnChar ' ' text with
  | nil => rw [hs] at hlen; simp at hlen
  | cons w ws =>
      cases ws with
      | nil => rw [hs] at hlen; simp at hlen
      | cons w2 ws2 =>
          have hw : wordOK w := hwords w (hs ▸ List.mem_cons_self _ _)
          have hws' : ∀ u ∈ w2 :: ws2, wordOK u :=
            fun u hu => hwords u (hs ▸ List.mem_cons_of_mem w hu)
          have hstep : wrapGo maxChars [] (w :: w2 :: ws2) = wrapGo maxChars w (w2 :: ws2) := by
            rw [wrapGo_unfold]
            simp
          rw [hstep]
          have hrec := wrapGo_join maxChars (w2 :: ws2) w hws' hw.1
            (wordOK_head w hw) (wordOK_last w hw)
          rw [hrec.2, ← hs, joinSep_splitOnChar]

theorem c10_wrap_join_witness :
    (2 ≤ (splitOnChar ' ' "ab cd".data).length ∧
      ∀ w ∈ splitOnChar ' ' "ab cd".data, wordOK w) ∧
    joinSep ' ' (wrapLines "ab cd".data 35) = "ab cd".data :=
  ⟨⟨by decide, by decide⟩, c10_wrap_join "ab cd".data 35 (by decide) (by decide)⟩

/- ==================== lemmas: language / font resolver ==================== -/

theorem detectGo_cons (c : Char) (rest : List Char) :
    detectGo (c :: rest) =
      match scriptOf c with
      | some s => s
      | none => detectGo rest := rfl

theorem detect_eq_firstMatch (t : List Char) : detect_language t = detectFirstMatch t := by
  induction t with
  | nil => rfl
  | cons c rest ih =>
      show detectGo (c :: rest) = _
      rw [detectGo_cons]
      unfold detectFirstMatch
      cases hs : scriptOf c with
      | some s => simp [List.findSome?_cons, hs]
      | none =>
          simp only [List.findSome?_cons, hs]
          exact ih

theorem scriptOf_font (c : Char) :
    ∀ s, scriptOf c = some s → (fontLookup s).isSome = true := by
  intro s h
  unfold scriptOf at h
  dsimp only at h
  split_ifs at h <;> simp only [Option.some.injEq] at h <;> rw [← h] <;> decide

theorem detect_font_isSome (t : List Char) :
    (fontLookup (detect_language t)).isSome = true := by
  induction t with
  | nil => decide
  | cons c rest ih =>
      show (fontLookup (detectGo (c :: rest))).isSome = true
      rw [detectGo_cons]
      cases hs : scriptOf c with
      | some s => exact scriptOf_font c s hs
      | none => exact ih

/-- Claim C5 counterexample: the claim says resolving `"Hello 你好"` yields
English and that Tagalog is among the detected scripts; but Latin characters
match no range in `detect_language` (English is only the fallback), so
`"Hello 你好"` resolves to Chinese; and a character of the Tagalog Unicode
block (U+1700, recognized by the spec-side resolver) falls through to
English because the source implements no Tagalog range. -/
theorem c5_counterexample :
    detect_language "Hello 你好".data = "chinese" ∧
    ("chinese" : String) ≠ "english" ∧
    detectLanguageSpec [Char.ofNat 0x1700] = "tagalog" ∧
    detect_language [Char.ofNat 0x1700] = "english" := by
  refine ⟨?_, ?_, ?_, ?_⟩ <;> decide

/-- Claim C5 (amended): the resolver scans left to right and returns the
script of the earliest character matching one of the seven implemented ranges
(Chinese, Japanese, Korean, Thai, Tamil, Bengali, Arabic — no Tagalog range
exists), falls back to English on empty or unmatched text, always maps to a
known font key, degrades to the English font when the mapped asset is missing
on disk, and is pure and total; both `"Hello 你好"` and `"你好 Hello"`
resolve to Chinese. -/
theorem c5_resolver_amended :
    (∀ t, detect_language t = detectFirstMatch t) ∧
    detect_language [] = "english" ∧
    detect_language "Hello 你好".data = "chinese" ∧
    detect_language "你好 Hello".data = "chinese" ∧
    (∀ t, (fontLookup (detect_language t)).isSome = true) ∧
    (∀ fsEx t, font_for_text fsEx t =
      if fsEx ((fontLookup (detect_language t)).getD englishFont) then
        (fontLookup (detect_language t)).getD englishFont
      else englishFont) :=
  ⟨detect_eq_firstMatch, by decide, by decide, by decide, detect_font_isSome,
    fun _ _ => rfl⟩

/- ==================== lemmas: audio mix planner ==================== -/

/-- Claim C2: exhaustive case behavior of the mix planner.  When neither
dialogue nor music is supplied the run is a plain stream copy; in every
filtered case the final invocation clamps the output to the base clip's
probed duration; with exactly one effectively present source the graph ends
in an `anull` identity passthrough and contains no mix node; with two or more
sources it ends in a single `amix` over exactly the present sources with the
`longest` duration policy and zero dropout transition. -/
theorem c2_mix_planner (ha d m : Bool) (dur vol : ℚ) :
    (d = false ∧ m = false → mix_audio ha d m dur vol = MixResult.copyOnly) ∧
    ((d || m) = true → clampOf (mix_audio ha d m dur vol) = some dur) ∧
    ((d || m) = true ∧ numSources ha d m = 1 →
      lastFilter (mix_audio ha d m dur vol) =
          some ⟨presentLabels ha d m, ALabel.outa, AOp.anull⟩ ∧
        countAmix (mix_audio ha d m dur vol) = 0) ∧
    (2 ≤ numSources ha d m →
      lastFilter (mix_audio ha d m dur vol) =
          some ⟨presentLabels ha d m, ALabel.outa,
            AOp.amix (numSources ha d m) "longest" 0⟩ ∧
        countAmix (mix_audio ha d m dur vol) = 1) := by
  cases ha <;> cases d <;> cases m <;>
    simp [mix_audio, clampOf, lastFilter, mixParts, countAmix, numSources,
      presentLabels, isAmixF]

theorem c2_mix_planner_witness :
    ((true || false) = true ∧ numSources false true false = 1 ∧
      lastFilter (mix_audio false true false 7 (3 / 10)) =
        some ⟨presentLabels false true false, ALabel.outa, AOp.anull⟩) ∧
    (2 ≤ numSources true true false ∧
      lastFilter (mix_audio true true false 7 (3 / 10)) =
        some ⟨presentLabels true true false, ALabel.outa,
          AOp.amix (numSources true true false) "longest" 0⟩) :=
  ⟨⟨by decide, by decide,
      ((c2_mix_planner false true false 7 (3 / 10)).2.2.1 ⟨by decide, by decide⟩).1⟩,
    ⟨by decide,
      ((c2_mix_planner true true false 7 (3 / 10)).2.2.2 (by decide)).1⟩⟩

/- ==================== lemmas: composition graph ==================== -/

theorem overlayChain_cons (cur : VLabel) (idx : Nat) (op : VOp) (rest : List VOp) :
    overlayChain cur idx (op :: rest) =
      (⟨cur, VLabel.v idx, op⟩ :: (overlayChain (VLabel.v idx) (idx + 1) rest).1,
        (overlayChain (VLabel.v idx) (idx + 1) rest).2) := rfl

theorem overlayChain_map_out :
    ∀ (ops : List VOp) (cur : VLabel) (idx : Nat),
      (overlayChain cur idx ops).1.map VNode.out = (List.range' idx ops.length).map VLabel.v := by
  intro ops
  induction ops with
  | nil => intro cur idx; rfl
  | cons op rest ih =>
      intro cur idx
      rw [overlayChain_cons]
      show VLabel.v idx :: (overlayChain (VLabel.v idx) (idx + 1) rest).1.map VNode.out = _
      rw [ih, List.length_cons, List.range'_succ idx rest.length 1, List.map_cons]

theorem overlayChain_map_op :
    ∀ (ops : List VOp) (cur : VLabel) (idx : Nat),
      (overlayChain cur idx ops).1.map VNode.op = ops := by
  intro ops
  induction ops with
  | nil => intro cur idx; rfl
  | cons op rest ih =>
      intro cur idx
      rw [overlayChain_cons]
      show op :: (overlayChain (VLabel.v idx) (idx + 1) rest).1.map VNode.op = _
      rw [ih]

theorem overlayChain_length (ops : List VOp) (cur : VLabel) (idx : Nat) :
    (overlayChain cur idx ops).1.length = ops.length := by
  have := overlayChain_map_op ops cur idx
  calc (overlayChain cur idx ops).1.length
      = ((overlayChain cur idx ops).1.map VNode.op).length := (List.length_map _ _).symm
    _ = ops.length := by rw [this]

theorem overlayChain_wired :
    ∀ (ops : List VOp) (cur : VLabel) (idx : Nat) (P : List VLabel), cur ∈ P →
      wiredFromV P (overlayChain cur idx ops).1 := by
  intro ops
  induction ops with
  | nil => intro cur idx P _; trivial
  | cons op rest ih =>
      intro cur idx P hcur
      rw [overlayChain_cons]
      exact ⟨hcur, ih (VLabel.v idx) (idx + 1) (VLabel.v idx :: P) (List.mem_cons_self _ _)⟩

theorem overlayChain_cur_mem :
    ∀ (ops : List VOp) (cur : VLabel) (idx : Nat) (P : List VLabel), cur ∈ P →
      (overlayChain cur idx ops).2.1 ∈
        ((overlayChain cur idx ops).1.map VNode.out).reverse ++ P := by
  intro ops
  induction ops with
  | nil => intro cur idx P hcur; exact hcur
  | cons op rest ih =>
      intro cur idx P hcur
      rw [overlayChain_cons]
      show (overlayChain (VLabel.v idx) (idx + 1) rest).2.1 ∈
        ((VLabel.v idx :: (overlayChain (VLabel.v idx) (idx + 1) rest).1.map VNode.out).reverse ++ P)
      rw [List.reverse_cons, List.append_assoc]
      exact ih (VLabel.v idx) (idx + 1) (VLabel.v idx :: P) (List.mem_cons_self _ _)

theorem wiredFromV_append :
    ∀ (xs ys : List VNode) (P : List VLabel),
      wiredFromV P (xs ++ ys) ↔
        wiredFromV P xs ∧ wiredFromV (xs.reverse.map VNode.out ++ P) ys := by
  intro xs
  induction xs with
  | nil => intro ys P; simp [wiredFromV]
  | cons x xs ih =>
      intro ys P
      show (x.inp ∈ P ∧ wiredFromV (x.out :: P) (xs ++ ys)) ↔ _
      rw [ih]
      constructor
      · rintro ⟨h1, h2, h3⟩
        exact ⟨⟨h1, h2⟩, by simpa using h3⟩
      · rintro ⟨⟨h1, h2⟩, h3⟩
        exact ⟨h1, h2, by simpa using h3⟩

theorem assemble_spec (ops : List VOp) (finalOp : VOp) :
    (assembleGraph ops finalOp).map VNode.out =
      (List.range' 1 ((assembleGraph ops finalOp).length - 1)).map VLabel.v ++ [VLabel.outv] ∧
    ((assembleGraph ops finalOp).map VNode.out).Nodup ∧
    wiredFromV [VLabel.inv] (assembleGraph ops finalOp) := by
  have hlen : (assembleGraph ops finalOp).length = ops.length + 1 := by
    unfold assembleGraph
    simp [overlayChain_length]
  have hmap : (assembleGraph ops finalOp).map VNode.out =
      (List.range' 1 ops.length).map VLabel.v ++ [VLabel.outv] := by
    unfold assembleGraph
    rw [List.map_append, overlayChain_map_out]
    rfl
  refine ⟨?_, ?_, ?_⟩
  · rw [hmap, hlen]; simp
  · rw [hmap]
    refine List.Nodup.append ?_ (by simp) ?_
    · exact (List.nodup_range' 1 ops.length 1 (by norm_num)).map
        (fun a b hab => by simpa using hab)
    · intro x hx hx2
      simp at hx2
      subst hx2
      rcases List.mem_map.mp hx with ⟨n, _, hn⟩
      exact absurd hn (by simp)
  · unfold assembleGraph
    rw [wiredFromV_append]
    refine ⟨overlayChain_wired ops VLabel.inv 1 [VLabel.inv] (by simp), ?_, trivial⟩
    show (overlayChain VLabel.inv 1 ops).2.1 ∈ _
    have h := overlayChain_cur_mem ops VLabel.inv 1 [VLabel.inv] (by simp)
    rw [List.map_reverse]
    exact h

/-- Claim C1: label allocation.  The video graph built by the composition
planner labels its nodes `[v1], [v2], ...` from the monotonically increasing
counter and closes with `[outv]` — so all output labels are distinct and never
reused — and every node's input was produced by an earlier node or is the
declared external input `[0:v]`; this holds for every combination of texts,
project name and branding toggle (skipped optional branches included).  The
audio mix graph likewise has pairwise distinct output labels and consumes
only declared input streams or earlier outputs. -/
theorem c1_label_allocation :
    (∀ (fsEx : String → Bool) (h : Int) (project top bottom : List Char) (branding : Bool),
      let G := add_branding_and_meme_text fsEx h project top bottom branding
      G.map VNode.out = (List.range' 1 (G.length - 1)).map VLabel.v ++ [VLabel.outv] ∧
        (G.map VNode.out).Nodup ∧ wiredFromV [VLabel.inv] G) ∧
    (∀ (ha d m : Bool) (dur vol : ℚ),
      ((mixParts (mix_audio ha d m dur vol)).map AFilter.out).Nodup ∧
        wiredFromA (audioExternals d m) (mixParts (mix_audio ha d m dur vol))) := by
  constructor
  · intro fsEx h project top bottom branding
    exact assemble_spec _ _
  · intro ha d m dur vol
    cases ha <;> cases d <;> cases m <;>
      simp [mix_audio, mixParts, wiredFromA, audioExternals]

theorem assemble_getLast (ops : List VOp) (finalOp : VOp) :
    (assembleGraph ops finalOp).getLast? =
      some ⟨(overlayChain VLabel.inv 1 ops).2.1, VLabel.outv, finalOp⟩ := by
  unfold assembleGraph
  exact List.getLast?_concat _

theorem assemble_dropLast (ops : List VOp) (finalOp : VOp) :
    (assembleGraph ops finalOp).dropLast = (overlayChain VLabel.inv 1 ops).1 := by
  unfold assembleGraph
  exact List.dropLast_concat

/-- Claim C8: with branding enabled the graph's penultimate node is the brand
prefix overlay — always the English font, left-anchored at x = 20,
y = height - 38 — and, when the project name is non-blank, the terminal node
overlays the project name with the font resolved from the project name alone
at x = 20 + measured prefix width = 176, shifted up by exactly 2 px iff the
resolved script is not English; with branding disabled or a blank project
name the terminal node is the no-op pass-through; in every case the terminal
node writes the `[outv]` label. -/
theorem c8_branding (fsEx : String → Bool) (h : Int) (project top bottom : List Char)
    (branding : Bool) :
    (let G := add_branding_and_meme_text fsEx h project top bottom branding
    G.getLast?.map VNode.out = some VLabel.outv ∧
    (branding = true →
      (G.dropLast.map VNode.op).getLast? =
        some (VOp.drawtext englishFont (escape_drawtext brandText) 18 1 (XPos.px 20) (h - 38))) ∧
    (branding = true → pyStripList project ≠ [] →
      G.getLast?.map VNode.op =
        some (VOp.drawtext (font_for_text fsEx project) (escape_drawtext project) 18 1
          (XPos.px 176)
          (if detect_language project = "english" then h - 38 else h - 40))) ∧
    ((branding = false ∨ pyStripList project = []) →
      G.getLast?.map VNode.op = some VOp.nullfilter)) := by
  simp only [add_branding_and_meme_text]
  refine ⟨?_, ?_, ?_, ?_⟩
  · rw [assemble_getLast]; rfl
  · intro hb
    rw [hb, assemble_dropLast, overlayChain_map_op]
    simp only [if_pos trivial]
    rw [List.getLast?_concat]
    rw [show h - 18 - 20 = h - 38 from by ring]
  · intro hb hp
    rw [hb, assemble_getLast]
    have hcond : (true = true ∧ pyStripList project ≠ []) := ⟨rfl, hp⟩
    rw [if_pos hcond]
    have hw : (20 : Int) + brandTextWidth = 176 := by decide
    rw [hw, show h - 18 - 20 = h - 38 from by ring]
    by_cases hl : detect_language project = "english"
    · rw [if_pos hl, if_pos hl]; rfl
    · rw [if_neg hl, if_neg hl, show h - 38 - 2 = h - 40 from by ring]; rfl
  · intro hor
    rcases hor with hb | hp
    · rw [hb, assemble_getLast]
      rw [if_neg (show ¬((false = true) ∧ pyStripList project ≠ []) from by simp)]
      rfl
    · rw [assemble_getLast]
      rw [if_neg (show ¬((branding = true) ∧ pyStripList project ≠ []) from by simp [hp])]
      rfl

theorem c8_branding_witness :
    pyStripList "acme".data ≠ [] ∧
    ((add_branding_and_meme_text (fun _ => true) 720 "acme".data [] [] true).getLast?.map
        VNode.op =
      some (VOp.drawtext (font_for_text (fun _ => true) "acme".data)
        (escape_drawtext "acme".data) 18 1 (XPos.px 176)
        (if detect_language "acme".data = "english" then 720 - 38 else 720 - 40))) :=
  ⟨by decide,
    (c8_branding (fun _ => true) 720 "acme".data [] [] true).2.2.1 rfl (by decide)⟩

/- ==================== lemmas: predict control flow ==================== -/

theorem probe_free_dl (cond : Prop) [Decidable cond] (name : String) :
    ∀ e ∈ (if cond then [Event.download name] else []), probeEvent e = false := by
  intro e he
  by_cases hc : cond
  · rw [if_pos hc] at he
    simp at he
    subst he
    rfl
  · rw [if_neg hc] at he
    simp at he

/-- Claim C3 counterexample: the claim demands a validation failure for every
request whose clip count is outside {1, 3}, but a request supplying two clip
references — a single-mode URL plus one scene URL — raises no validation
error at all: the code keys on "single URL present or all three scenes
present", proceeds in single mode, and probes the downloaded clip. -/
theorem c3_counterexample :
    clipRefsSupplied reqTwoClips = 2 ∧
    (∀ e ∈ predictTrace reqTwoClips, isValErrorB e = false) ∧
    Event.probeDims ∈ predictTrace reqTwoClips := by
  refine ⟨by decide, by decide, by decide⟩

/-- Claim C3 (amended): a request that supplies neither a usable single-clip
URL nor all three scene URLs — in particular 0 supplied clips, or 2 scene
clips with no single URL — raises a `ValueError`, and its trace contains no
media probe (only the optional audio downloads precede the error).  When a
single-clip URL is supplied, extra scene URLs short of all three are ignored
rather than rejected. -/
theorem c3_validation (req : Request)
    (hst : useStitchB req = false)
    (hsrc : present (effSrc req) = false) :
    predictTrace req =
      (if present req.final_dialogue then [Event.download "dialogue"] else []) ++
        (if present req.final_music_url then [Event.download "music"] else []) ++
        [Event.valError "no source provided"] ∧
    ∀ e ∈ predictTrace req, probeEvent e = false := by
  have htr : predictTrace req =
      (if present req.final_dialogue then [Event.download "dialogue"] else []) ++
        (if present req.final_music_url then [Event.download "music"] else []) ++
        [Event.valError "no source provided"] := by
    unfold predictTrace
    rw [hst, hsrc]
    simp
  refine ⟨htr, ?_⟩
  intro e he
  rw [htr] at he
  rcases List.mem_append.mp he with h | h
  · rcases List.mem_append.mp h with h1 | h1
    · exact probe_free_dl _ _ e h1
    · exact probe_free_dl _ _ e h1
  · simp at h
    subst h
    rfl

theorem c3_validation_witness :
    (useStitchB reqEmpty = false ∧ present (effSrc reqEmpty) = false) ∧
    predictTrace reqEmpty = [Event.valError "no source provided"] ∧
    ∀ e ∈ predictTrace reqEmpty, probeEvent e = false := by
  have h := c3_validation reqEmpty (by decide) (by decide)
  exact ⟨⟨by decide, by decide⟩, by rw [h.1]; decide, h.2⟩

/-- Claim C6 counterexample: in stitch mode with a supplied dialogue track,
the composition calls the mix planner with the dialogue slot empty
(`mix_audio(stitched, None, music_p)` at src/predict.py:421), so the dialogue
track is never mixed, contradicting "runs the audio mix planner over all
supplied tracks in single-clip mode and in stitch mode alike". -/
theorem c6_counterexample :
    present reqStitchDialogue.final_dialogue = true ∧
    Event.mixCall false false ∈ predictTrace reqStitchDialogue ∧
    Event.mixCall true false ∉ predictTrace reqStitchDialogue ∧
    Event.mixCall true true ∉ predictTrace reqStitchDialogue := by
  refine ⟨by decide, by decide, by decide, by decide⟩

/-- Claim C6 (amended): in single-clip mode the mix planner runs over both
supplied tracks whenever dialogue or music is present and is not invoked at
all when neither is (the audio path is then a plain stream copy of the base);
in stitch mode the planner is always invoked with the music track only — a
supplied dialogue track is never passed. -/
theorem c6_audio_mix_invocation (req : Request) :
    (useStitchB req = false → present (effSrc req) = true →
      (present req.final_dialogue || present req.final_music_url) = true →
      Event.mixCall (present req.final_dialogue) (present req.final_music_url) ∈
        predictTrace req) ∧
    (useStitchB req = false → present (effSrc req) = true →
      present req.final_dialogue = false → present req.final_music_url = false →
      ∀ d m : Bool, Event.mixCall d m ∉ predictTrace req) ∧
    (useStitchB req = true → scenesOkB req = true →
      Event.mixCall false (present req.final_music_url) ∈ predictTrace req ∧
      ∀ m : Bool, Event.mixCall true m ∉ predictTrace req) := by
  refine ⟨?_, ?_, ?_⟩
  · intro h1 h2 h3
    simp only [predictTrace, h1, h2, h3]
    simp
  · intro h1 h2 hd hm d m
    simp only [predictTrace, h1, h2, hd, hm]
    simp [brandingEvents]
  · intro h1 h2
    have hp : present req.scene1_url = true ∧ present req.scene2_url = true ∧
        present req.scene3_url = true := by
      have h3 := h2
      unfold scenesOkB at h3
      simp [Bool.and_eq_true] at h3
      exact ⟨h3.1.1, h3.1.2, h3.2⟩
    constructor
    · simp only [predictTrace, h1, hp.1, hp.2.1, hp.2.2]
      simp
    · intro m
      simp only [predictTrace, h1, hp.1, hp.2.1, hp.2.2]
      simp [concatEvents, brandingEvents, mixEvents]
      by_cases hm : present req.final_music_url = false <;> simp [hm]

theorem c6_audio_mix_invocation_witness :
    (useStitchB reqSingleMusic = false ∧ present (effSrc reqSingleMusic) = true ∧
      (present reqSingleMusic.final_dialogue || present reqSingleMusic.final_music_url) = true) ∧
    Event.mixCall (present reqSingleMusic.final_dialogue)
        (present reqSingleMusic.final_music_url) ∈ predictTrace reqSingleMusic :=
  ⟨⟨by decide, by decide, by decide⟩,
    (c6_audio_mix_invocation reqSingleMusic).1 (by decide) (by decide) (by decide)⟩

/-- Claim C9 is right about the intended design and the code falls short of
it (the spec's design notes section itself flags both defects): the scratch
directory name is a function of the meme id slug and the wall-clock second
only, so two distinct concurrent requests with the same id in the same second
collide on the same directory; and no exit path ever removes the per-request
work directory — the only deletions the pipeline performs are
`concat_videos`' own re-encode temporaries. -/
theorem c9_scratch_dir :
    reqSingleA ≠ reqSingleMusic ∧
    workDirFor reqSingleA 1733000000 = workDirFor reqSingleMusic 1733000000 ∧
    (∀ e ∈ predictTrace reqSingleA, isUnlinkB e = false) ∧
    (∀ e ∈ predictTrace reqSingleMusic, isUnlinkB e = false) ∧
    (predictTrace reqStitchDialogue).filter isUnlinkB =
      [Event.unlinkTemp "rec_0", Event.unlinkTemp "rec_1", Event.unlinkTemp "rec_2",
        Event.unlinkTemp "concat_list"] := by
  refine ⟨by decide, rfl, by decide, by decide, by decide⟩

end ScaleClip
